import Mathlib

/-!
Shallow embedding of the data pipeline of `src/src/App.tsx` (the
`useBitnodesData` hook of the bitcoin-heatmap repository): the fetch task
`fetchAndProcessNodes`, the per-record validity check, the processed-node
list, the density-cell aggregation for the heatmap, the summary analytics
(frequency tables, top-3 selections, HHI concentration score), the mock
fallback data, and the localStorage cache short-circuit.

Modelling conventions:
* JavaScript numbers are modelled by exact rationals; `NaN` is a separate
  constructor.  IEEE-754 rounding noise is not modelled.
* The raw snapshot entries (`Object.entries(data.nodes)`) are pairs of an
  identifier string and a JSON value.  The per-peer record arrays of the
  Bitnodes snapshot schema hold scalar fields, so array elements are
  modelled as primitives.
* JavaScript `Map` and `Set` preserve insertion order; they are modelled
  as association lists where updating a present key keeps its position
  and a fresh key is appended.
* `Array.prototype.sort` is stable (ECMAScript 2019); with the comparator
  `(a, b) => b.count - a.count` it is modelled by a stable
  descending-by-count insertion sort.
* `localStorage` is modelled as two optional fields of the state: the
  parsed numeric timestamp under `bitnodes_last_fetch` and the statistics
  blob under `bitnodes_last_data`; the JSON round-trip of the statistics
  blob is modelled as the identity.
* `Number(string)` coercion of non-numeric strings and of numeric strings
  is not modelled (it never occurs: `connectedSince` is numeric in the
  snapshot schema); a string coerces to `NaN` here.
* React state setters are modelled by explicit state passing; the
  function returns the final state together with a flag recording whether
  the network `fetch` call was performed.
-/

/-- A scalar JavaScript/JSON value. -/
inductive JPrim where
  | pnull
  | pundefined
  | pbool (b : Bool)
  | pnum (x : ℚ)
  | pnan
  | pstr (s : String)
  deriving DecidableEq, Repr

/-- A JSON value as it appears as an entry of the raw peer map: either a
scalar or an array of scalars (the snapshot schema has scalar fields). -/
inductive JVal where
  | prim (p : JPrim)
  | arr (xs : List JPrim)
  deriving DecidableEq, Repr

namespace JPrim

/-- JavaScript truthiness of a scalar value. -/
def truthy : JPrim → Bool
  | .pnull => false
  | .pundefined => false
  | .pbool b => b
  | .pnum x => decide (x ≠ 0)
  | .pnan => false
  | .pstr s => decide (s ≠ "")

/-- `typeof v === "number"` (true for NaN as well). -/
def typeofNumber : JPrim → Bool
  | .pnum _ => true
  | .pnan => true
  | _ => false

/-- `Number(v)` coercion to a JavaScript number, `none` standing for NaN.
String coercion is not modelled (unused by the pipeline on real data). -/
def toNum : JPrim → Option ℚ
  | .pnull => some 0
  | .pundefined => none
  | .pbool b => some (if b then 1 else 0)
  | .pnum x => some x
  | .pnan => none
  | .pstr _ => none

/-- `isNaN(v)`: coerce to number and test for NaN. -/
def jsIsNaN (p : JPrim) : Bool := (toNum p).isNone

end JPrim

/-- A NaN-propagating JavaScript number (`none` = NaN). -/
abbrev JNum := Option ℚ

/-- NaN-propagating addition. -/
def jadd (a b : JNum) : JNum :=
  match a, b with
  | some x, some y => some (x + y)
  | _, _ => none

/-- NaN-propagating subtraction. -/
def jsub (a b : JNum) : JNum :=
  match a, b with
  | some x, some y => some (x - y)
  | _, _ => none

/-- NaN-propagating division by an exact rational. -/
def jdivQ (a : JNum) (q : ℚ) : JNum := a.map (fun x => x / q)

/-- Lookup in an insertion-ordered association table. -/
def tblLookup {K β : Type} [DecidableEq K] : List (K × β) → K → Option β
  | [], _ => none
  | (a, b) :: t, k => if a = k then some b else tblLookup t k

/-- `m.set(k, (m.get(k) || 0) + 1)` on a JavaScript `Map<K, number>`:
increments a present key in place, appends a fresh key with count 1. -/
def bump {K : Type} [DecidableEq K] : List (K × Nat) → K → List (K × Nat)
  | [], k => [(k, 1)]
  | (a, n) :: t, k => if a = k then (a, n + 1) :: t else (a, n) :: bump t k

/-- The count stored under a key (0 when absent). -/
def getCount {K : Type} [DecidableEq K] (t : List (K × Nat)) (k : K) : Nat :=
  (tblLookup t k).getD 0

/-- Sum of all stored counts. -/
def sumVals {K : Type} (t : List (K × Nat)) : Nat := (t.map (fun p => p.2)).sum

/-- `Set.add`: append the value unless already present (insertion order). -/
def setAdd (cs : List JPrim) (v : JPrim) : List JPrim :=
  if v ∈ cs then cs else cs ++ [v]

/-- The `ProcessedNode` interface of `App.tsx`.  Latitude and longitude are
guaranteed numeric by the validity check; the other fields carry whatever
scalar the raw record held at the corresponding position. -/
structure ProcessedNode where
  lat : ℚ
  lon : ℚ
  userAgent : JPrim
  country : JPrim
  protocolVersion : JPrim
  organization : JPrim
  connectedSince : JPrim
  deriving DecidableEq, Repr

/-- Positional field access on a raw record: a missing index yields
`undefined`, as in JavaScript. -/
def jGet (xs : List JPrim) (i : Nat) : JPrim := xs.getD i .pundefined

/-- The validity test of `App.tsx` lines 101-108: the entry is an array of
more than 12 elements whose positions 8 and 9 are numbers and not NaN. -/
def validRecord : JVal → Bool
  | .prim _ => false
  | .arr xs =>
      decide (xs.length > 12) &&
      (jGet xs 8).typeofNumber && (jGet xs 9).typeofNumber &&
      !(jGet xs 8).jsIsNaN && !(jGet xs 9).jsIsNaN

/-- Numeric payload of a scalar (only applied to positions the validity
check has established to be numbers). -/
def asRat : JPrim → ℚ
  | .pnum x => x
  | _ => 0

/-- Build a `ProcessedNode` from a valid record's field array
(`App.tsx` lines 109-117). -/
def mkNode (xs : List JPrim) : ProcessedNode :=
  { lat := asRat (jGet xs 8)
    lon := asRat (jGet xs 9)
    userAgent := jGet xs 1
    country := jGet xs 7
    protocolVersion := jGet xs 0
    organization := jGet xs 12
    connectedSince := jGet xs 2 }

/-- `ProcessedNode` built from a raw JSON value (non-arrays never reach
this under the validity filter). -/
def nodeOf : JVal → ProcessedNode
  | .arr xs => mkNode xs
  | .prim _ => ⟨0, 0, .pundefined, .pundefined, .pundefined, .pundefined, .pundefined⟩

/-- Accumulator of the single `nodes.forEach` loop of `App.tsx`
lines 100-144: processed nodes plus the frequency tables and uptime sums
built in the same pass. -/
structure ProcAcc where
  processedNodes : List ProcessedNode
  countrySet : List JPrim
  userAgentCounts : List (JPrim × Nat)
  orgCounts : List (JPrim × Nat)
  versionCounts : List (JPrim × Nat)
  totalUptime : JNum
  uptimeCount : Nat
  deriving DecidableEq, Repr

/-- The empty accumulator (loop entry state). -/
def emptyAcc : ProcAcc := ⟨[], [], [], [], [], some 0, 0⟩

/-- One iteration of the `nodes.forEach` loop: skip invalid entries,
otherwise push the node and update every table guarded by truthiness
(`if (node.country)`, `if (node.userAgent)`, ...). -/
def procStep (now : Nat) (acc : ProcAcc) (e : String × JVal) : ProcAcc :=
  match e.2 with
  | .prim _ => acc
  | .arr xs =>
      if validRecord (.arr xs) then
        let node := mkNode xs
        { processedNodes := acc.processedNodes ++ [node]
          countrySet :=
            if node.country.truthy then setAdd acc.countrySet node.country
            else acc.countrySet
          userAgentCounts :=
            if node.userAgent.truthy then bump acc.userAgentCounts node.userAgent
            else acc.userAgentCounts
          orgCounts :=
            if node.organization.truthy then bump acc.orgCounts node.organization
            else acc.orgCounts
          versionCounts :=
            if node.protocolVersion.truthy then bump acc.versionCounts node.protocolVersion
            else acc.versionCounts
          totalUptime :=
            if node.connectedSince.truthy then
              jadd acc.totalUptime (jsub (some ((now : ℚ) / 1000)) node.connectedSince.toNum)
            else acc.totalUptime
          uptimeCount :=
            if node.connectedSince.truthy then acc.uptimeCount + 1
            else acc.uptimeCount }
      else acc

/-- The whole `nodes.forEach` loop over the raw peer-map entries. -/
def processEntries (now : Nat) (entries : List (String × JVal)) : ProcAcc :=
  entries.foldl (procStep now) emptyAcc

/-- Specification-side description of the loop output: the valid entries,
in order, mapped to their nodes. -/
def validNodes (entries : List (String × JVal)) : List ProcessedNode :=
  (entries.filter (fun e => validRecord e.2)).map (fun e => nodeOf e.2)

/-- `Number.prototype.toFixed(1)` as an exact rational: round to one
decimal place, ties away from zero (ECMAScript ToFixed negates first when
the argument is negative). -/
def toFixed1 (x : ℚ) : ℚ :=
  if x < 0 then -((⌊10 * (-x) + 1 / 2⌋ : ℚ) / 10) else (⌊10 * x + 1 / 2⌋ : ℚ) / 10

/-- A heatmap density cell: rounded coordinates plus a peer count. -/
structure AggCell where
  lat : ℚ
  lon : ℚ
  count : Nat
  deriving DecidableEq, Repr

/-- The aggregation key of a node: the pair of coordinates rounded to one
decimal.  The source keys its `Map` by the string
`lat.toFixed(1) + "," + lon.toFixed(1)`, which is in bijection with this
pair (a `toFixed` string contains no comma). -/
def cellKey (n : ProcessedNode) : ℚ × ℚ := (toFixed1 n.lat, toFixed1 n.lon)

/-- Increment the count of the cell stored under a (present) key, keeping
its position, as `existing.count += 1` on the `Map` entry does. -/
def bumpCell : List ((ℚ × ℚ) × AggCell) → (ℚ × ℚ) → List ((ℚ × ℚ) × AggCell)
  | [], _ => []
  | (k, c) :: t, key =>
      if k = key then (k, { c with count := c.count + 1 }) :: t
      else (k, c) :: bumpCell t key

/-- State of the aggregation loop of `App.tsx` lines 150-171: the
insertion-ordered cell map plus the running `currentMaxIntensity`. -/
structure AggSt where
  map : List ((ℚ × ℚ) × AggCell)
  curMax : Nat
  deriving DecidableEq, Repr

/-- One iteration of the aggregation loop over a processed node. -/
def aggNode (st : AggSt) (n : ProcessedNode) : AggSt :=
  let key := cellKey n
  match tblLookup st.map key with
  | some c =>
      { map := bumpCell st.map key, curMax := max st.curMax (c.count + 1) }
  | none =>
      { map := st.map ++ [(key, ⟨key.1, key.2, 1⟩)], curMax := max st.curMax 1 }

/-- The whole aggregation loop. -/
def aggregate (nodes : List ProcessedNode) : AggSt := nodes.foldl aggNode ⟨[], 0⟩

/-- `Array.from(aggregationMap.values()).map(agg => [agg.lat, agg.lon, agg.count])`. -/
def heatmapOf (st : AggSt) : List (ℚ × ℚ × Nat) :=
  st.map.map (fun p => (p.2.lat, p.2.lon, p.2.count))

/-- Count stored in the cell under a key (0 when the cell is absent). -/
def cellCount (m : List ((ℚ × ℚ) × AggCell)) (key : ℚ × ℚ) : Nat :=
  match tblLookup m key with
  | some c => c.count
  | none => 0

/-- The largest cell count of the map (0 when empty): the true maximum
density-cell count. -/
def maxCount (m : List ((ℚ × ℚ) × AggCell)) : Nat :=
  (m.map (fun p => p.2.count)).foldr max 0

/-- Stable insertion of an entry into a descending-by-count list: placed
before the first strictly smaller count, after every count at least as
large. -/
def insertByCountDesc {α : Type} (x : α × Nat) : List (α × Nat) → List (α × Nat)
  | [] => [x]
  | y :: t => if x.2 > y.2 then x :: y :: t else y :: insertByCountDesc x t

/-- `entries.sort((a, b) => b.count - a.count)`: the stable descending
sort of ECMAScript `Array.prototype.sort` under that comparator. -/
def sortByCountDesc {α : Type} (l : List (α × Nat)) : List (α × Nat) :=
  l.foldl (fun acc x => insertByCountDesc x acc) []

/-- `.sort((a, b) => b.count - a.count).slice(0, 3)`. -/
def top3 {α : Type} (l : List (α × Nat)) : List (α × Nat) :=
  (sortByCountDesc l).take 3

/-- The second pass of `App.tsx` lines 200-208 building the per-country
frequency table for the HHI score. -/
def countryCountsOf (nodes : List ProcessedNode) : List (JPrim × Nat) :=
  nodes.foldl
    (fun t n => if n.country.truthy then bump t n.country else t) []

/-- The HHI concentration score of `App.tsx` lines 210-213:
`reduce((sum, count) => sum + (count / totalNodes) ** 2, 0)` over the
country counts. -/
def hhiOf (nodes : List ProcessedNode) : ℚ :=
  ((countryCountsOf nodes).map (fun p => p.2)).foldl
    (fun (sum : ℚ) (c : Nat) => sum + ((c : ℚ) / (nodes.length : ℚ)) ^ 2) 0

/-- The analytics record (`SummaryStatistics`); `none` models an absent
optional field, as in the zero state `{ totalNodes: 0, uniqueCountries: 0 }`. -/
structure Analytics where
  totalNodes : Nat
  uniqueCountries : Nat
  topUserAgents : Option (List (JPrim × Nat))
  topOrganizations : Option (List (JPrim × Nat))
  protocolVersions : Option (List (JPrim × Nat))
  averageUptime : Option JNum
  decentralizationScore : Option ℚ
  deriving DecidableEq, Repr

/-- The zero state `{ totalNodes: 0, uniqueCountries: 0 }`. -/
def zeroAnalytics : Analytics := ⟨0, 0, none, none, none, none, none⟩

/-- `processedAnalytics` of `App.tsx` lines 186-224. -/
def computeAnalytics (acc : ProcAcc) : Analytics :=
  { totalNodes := acc.processedNodes.length
    uniqueCountries := acc.countrySet.length
    topUserAgents := some (top3 acc.userAgentCounts)
    topOrganizations := some (top3 acc.orgCounts)
    protocolVersions := some (sortByCountDesc acc.versionCounts)
    averageUptime :=
      some (if acc.uptimeCount > 0 then
              jdivQ (jdivQ acc.totalUptime (acc.uptimeCount : ℚ)) 86400
            else some 0)
    decentralizationScore := some (hhiOf acc.processedNodes) }

/-- The state touched by the fetch task: the React state of the
`useBitnodesData` hook plus the two localStorage keys. -/
structure AppState where
  heatmapPoints : List (ℚ × ℚ × Nat)
  individualNodes : List ProcessedNode
  loading : Bool
  error : Option String
  maxIntensity : Nat
  analytics : Analytics
  cacheFetch : Option Nat
  cacheData : Option Analytics
  deriving DecidableEq, Repr

/-- The hook's initial state (`useState` defaults). -/
def initialState : AppState :=
  { heatmapPoints := []
    individualNodes := []
    loading := true
    error := none
    maxIntensity := 50
    analytics := zeroAnalytics
    cacheFetch := none
    cacheData := none }

/-- `mockHeatmapPoints` of `App.tsx` lines 52-60. -/
def mockHeatmapPoints : List (ℚ × ℚ × Nat) :=
  [(40.7, -74.0, 25), (51.5, -0.1, 18), (35.7, 139.7, 12), (-33.9, 151.2, 9)]

/-- `mockIndividualNodes` of `App.tsx` lines 61-67. -/
def mockIndividualNodes : List ProcessedNode :=
  [ { lat := 40.7128, lon := -74.006, userAgent := .pstr "/Mock:1.0/",
      country := .pstr "US", protocolVersion := .pundefined,
      organization := .pundefined, connectedSince := .pundefined },
    { lat := 51.5074, lon := -0.1278, userAgent := .pstr "/Mock:1.0/",
      country := .pstr "GB", protocolVersion := .pundefined,
      organization := .pundefined, connectedSince := .pundefined } ]

/-- Outcome of the `fetch` call and body handling: a thrown error, or a
response with its `ok` flag, status, and the `data?.nodes` entries
(`none` models a body whose top-level peer-map field is missing or falsy,
or a body that failed to parse). -/
inductive FetchResult where
  | thrown (msg : String)
  | resp (ok : Bool) (status : Nat) (nodes : Option (List (String × JVal)))
  deriving DecidableEq, Repr

/-- Whether the outcome takes the catch path of the task. -/
def FetchResult.fails : FetchResult → Bool
  | .thrown _ => true
  | .resp ok _ nodes => !ok || nodes.isNone

/-- The catch block of `App.tsx` lines 228-234: record the message, fall
back to the mock data, reset the intensity and the analytics. -/
def errState (s : AppState) (msg : String) : AppState :=
  { s with
    error := some msg
    heatmapPoints := mockHeatmapPoints
    individualNodes := mockIndividualNodes
    maxIntensity := 50
    analytics := zeroAnalytics
    loading := false }

/-- The cache test of `App.tsx` line 79:
`lastFetch && lastData && now - lastFetch < 600000`
(a stored timestamp of 0 is falsy, a missing key parses to NaN = falsy). -/
def cacheHit (s : AppState) (now : Nat) : Bool :=
  match s.cacheFetch, s.cacheData with
  | some t, some _ => decide (t ≠ 0) && decide ((now : Int) - (t : Int) < 600000)
  | _, _ => false

/-- The try/catch body of the task once the cache check has fallen
through (`App.tsx` lines 85-237). -/
def runFetch (s : AppState) (now : Nat) (fr : FetchResult) : AppState × Bool :=
  match fr with
  | .thrown msg => (errState s msg, true)
  | .resp ok status nodes =>
      if !ok then (errState s ("API Error: " ++ toString status), true)
      else
        match nodes with
        | none => (errState s "Invalid API response structure.", true)
        | some entries =>
            let acc := processEntries now entries
            let processed := acc.processedNodes
            -- line 147: setIndividualNodes(processedNodes.slice(0, 10000))
            let s1 := { s with individualNodes := processed.take 10000 }
            let agg := aggregate processed
            let aggregatedPoints := heatmapOf agg
            let calculatedMax := max 1 (Int.toNat ⌈(agg.curMax : ℚ) * (0.8 : ℚ)⌉)
            let analytics := computeAnalytics acc
            ({ s1 with
               maxIntensity := calculatedMax
               heatmapPoints :=
                 if aggregatedPoints.length > 0 then aggregatedPoints
                 else mockHeatmapPoints
               -- lines 182-184: second setIndividualNodes call
               individualNodes :=
                 if processed.length > 0 then processed else mockIndividualNodes
               analytics := analytics
               loading := false
               cacheFetch := some now
               cacheData := some analytics }, true)

/-- The whole `fetchAndProcessNodes` task as a function of the prior
state, the clock, and the fetch outcome.  Returns the final state and
whether the network call was performed. -/
def fetchAndProcessNodes (s : AppState) (now : Nat) (fr : FetchResult) :
    AppState × Bool :=
  let s0 : AppState := { s with loading := true, error := none }
  if cacheHit s0 now then
    ({ s0 with analytics := s0.cacheData.getD zeroAnalytics, loading := false },
     false)
  else runFetch s0 now fr

/-- Per-node step of one frequency table: bump the key produced by `g`
when that key is truthy, as `if (node.field) counts.set(...)` does. -/
def tblStep {α : Type} (g : α → JPrim) (t : List (JPrim × Nat)) (a : α) :
    List (JPrim × Nat) :=
  if (g a).truthy then bump t (g a) else t

/-- Per-node step of the country `Set`. -/
def setStep (cs : List JPrim) (n : ProcessedNode) : List JPrim :=
  if n.country.truthy then setAdd cs n.country else cs

/-- Per-node step of `totalUptime`. -/
def uptimeStep (now : Nat) (u : JNum) (n : ProcessedNode) : JNum :=
  if n.connectedSince.truthy then
    jadd u (jsub (some ((now : ℚ) / 1000)) n.connectedSince.toNum)
  else u

/-- Per-node step of `uptimeCount`. -/
def uptimeCountStep (c : Nat) (n : ProcessedNode) : Nat :=
  if n.connectedSince.truthy then c + 1 else c

/-- Sum of all cell counts of the aggregation map. -/
def sumCounts (m : List ((ℚ × ℚ) × AggCell)) : Nat :=
  (m.map (fun p => p.2.count)).sum

/-- Modelled from the spec: the display-intensity ceiling formula
`max(1, ceil(M * 0.8))` applied to the true maximum cell count `M`,
stated for comparison with the ceiling the code computes from its running
`currentMaxIntensity`. -/
def displayCeiling (M : Nat) : Nat := max 1 (Int.toNat ⌈(M : ℚ) * (0.8 : ℚ)⌉)

/-- Descending order of counts on a table (the order the comparator
`(a, b) => b.count - a.count` sorts into). -/
def SortedByCountDesc {α : Type} (l : List (α × Nat)) : Prop :=
  l.Pairwise (fun a b => b.2 ≤ a.2)

/-- A raw record of exactly 13 elements (positions 0-12) with numeric,
non-NaN coordinates at positions 8 and 9. -/
def rec13Fields : List JPrim :=
  [.pnum 70016, .pstr "/Satoshi:25.0.0/", .pnum 1700000000, .pstr "services",
   .pnum 800000, .pstr "host", .pstr "city", .pstr "US", .pnum 40.7,
   .pnum (-74.0), .pstr "tz", .pstr "asn", .pstr "Org"]

/-- A valid raw record whose position 0 (protocol version) is the number 0. -/
def recV0Fields : List JPrim :=
  [.pnum 0, .pstr "/UA:1.0/", .pnum 0, .pnull, .pnum 0, .pstr "h", .pstr "c",
   .pstr "US", .pnum 1, .pnum 2, .pnull, .pnull, .pstr "Org"]

/-- A valid raw record carrying a given user-agent string. -/
def uaRecord (ua : String) : String × JVal :=
  ("id", .arr [.pnum 70016, .pstr ua, .pnum 0, .pnull, .pnull, .pnull, .pnull,
               .pnull, .pnum 1, .pnum 2, .pnull, .pnull, .pnull])

/-- A snapshot whose user agents are encountered as A, A, A, A, A, B, B,
B, B, B, C, C, C, D: counts A:5, B:5, C:3, D:1 in that encounter order. -/
def uaExampleEntries : List (String × JVal) :=
  List.replicate 5 (uaRecord "A") ++ List.replicate 5 (uaRecord "B") ++
    List.replicate 3 (uaRecord "C") ++ [uaRecord "D"]

/-- A snapshot of 10001 identical valid records. -/
def bigEntries : List (String × JVal) :=
  List.replicate 10001 ("id", JVal.arr rec13Fields)

/-- A single processed peer located in the US. -/
def usNode : ProcessedNode :=
  ⟨1, 2, .pstr "/ua/", .pstr "US", .pnum 70016, .pnull, .pnum 0⟩

section TableLemmas

variable {K : Type} [DecidableEq K]

theorem getCount_bump (t : List (K × Nat)) (k v : K) :
    getCount (bump t k) v = getCount t v + if v = k then 1 else 0 := by
  induction t with
  | nil =>
      by_cases h : v = k
      · subst h; simp [bump, getCount, tblLookup]
      · have hkv : ¬k = v := fun h2 => h h2.symm
        simp [bump, getCount, tblLookup, h, hkv]
  | cons hd tl ih =>
      obtain ⟨a, n⟩ := hd
      by_cases hak : a = k
      · subst hak
        by_cases hv : v = a
        · subst hv; simp [bump, getCount, tblLookup]
        · have hav : ¬a = v := fun h2 => hv h2.symm
          simp [bump, getCount, tblLookup, hv, hav]
      · simp only [bump, if_neg hak]
        by_cases hva : a = v
        · subst hva
          simp [getCount, tblLookup, hak]
        · simp only [getCount, tblLookup, if_neg hva]
          simpa [getCount] using ih

theorem sumVals_bump (t : List (K × Nat)) (k : K) :
    sumVals (bump t k) = sumVals t + 1 := by
  induction t with
  | nil => simp [bump, sumVals]
  | cons hd tl ih =>
      obtain ⟨a, n⟩ := hd
      by_cases hak : a = k
      · simp [bump, hak, sumVals, Nat.add_assoc, Nat.add_comm, Nat.add_left_comm]
      · simp only [bump, if_neg hak]
        simp only [sumVals, List.map_cons, List.sum_cons] at ih ⊢
        omega

theorem fst_of_mem_bump {t : List (K × Nat)} {k : K} {p : K × Nat}
    (hp : p ∈ bump t k) : p.1 ∈ t.map Prod.fst ∨ p.1 = k := by
  induction t with
  | nil => simp [bump] at hp; simp [hp]
  | cons hd tl ih =>
      obtain ⟨a, n⟩ := hd
      by_cases hak : a = k
      · simp only [bump, if_pos hak] at hp
        rcases List.mem_cons.mp hp with h | h
        · left; simp [h]
        · left; simp [List.mem_map]
          exact Or.inr ⟨p.2, by simpa using h⟩
      · simp only [bump, if_neg hak] at hp
        rcases List.mem_cons.mp hp with h | h
        · left; simp [h]
        · rcases ih h with h2 | h2
          · left; simp [List.mem_map] at h2 ⊢; tauto
          · right; exact h2

theorem one_le_of_mem_bump {t : List (K × Nat)} {k : K}
    (ht : ∀ p ∈ t, 1 ≤ p.2) : ∀ p ∈ bump t k, 1 ≤ p.2 := by
  induction t with
  | nil => intro p hp; simp [bump] at hp; simp [hp]
  | cons hd tl ih =>
      obtain ⟨a, n⟩ := hd
      intro p hp
      by_cases hak : a = k
      · simp only [bump, if_pos hak] at hp
        rcases List.mem_cons.mp hp with h | h
        · simp [h]
        · exact ht p (List.mem_cons_of_mem _ h)
      · simp only [bump, if_neg hak] at hp
        rcases List.mem_cons.mp hp with h | h
        · exact h ▸ ht (a, n) (List.mem_cons_self _ _)
        · exact ih (fun q hq => ht q (List.mem_cons_of_mem _ hq)) p h

theorem keys_bump (t : List (K × Nat)) (k : K) :
    (bump t k).map Prod.fst =
      if k ∈ t.map Prod.fst then t.map Prod.fst else t.map Prod.fst ++ [k] := by
  induction t with
  | nil => simp [bump]
  | cons hd tl ih =>
      obtain ⟨a, n⟩ := hd
      by_cases hak : a = k
      · subst hak; simp [bump]
      · have hka : ¬k = a := fun h => hak h.symm
        simp only [bump, if_neg hak, List.map_cons, List.mem_cons, hka, false_or]
        by_cases hk : k ∈ tl.map Prod.fst
        · simp [ih, hk]
        · simp [ih, hk]

theorem mem_keys_bump (t : List (K × Nat)) (k v : K) :
    v ∈ (bump t k).map Prod.fst ↔ v ∈ t.map Prod.fst ∨ v = k := by
  rw [keys_bump]
  by_cases hk : k ∈ t.map Prod.fst
  · simp only [if_pos hk]
    constructor
    · exact Or.inl
    · rintro (h | rfl)
      · exact h
      · exact hk
  · simp [if_neg hk]

theorem nodup_keys_bump {t : List (K × Nat)} {k : K}
    (ht : (t.map Prod.fst).Nodup) : ((bump t k).map Prod.fst).Nodup := by
  rw [keys_bump]
  by_cases hk : k ∈ t.map Prod.fst
  · simpa [hk] using ht
  · simp [hk, List.nodup_append, ht]

theorem tblLookup_eq_none_iff (t : List (K × β)) (k : K) :
    tblLookup t k = none ↔ k ∉ t.map Prod.fst := by
  induction t with
  | nil => simp [tblLookup]
  | cons hd tl ih =>
      obtain ⟨a, b⟩ := hd
      by_cases hak : a = k
      · subst hak; simp [tblLookup]
      · have hka : ¬k = a := fun h => hak h.symm
        simp [tblLookup, hak, hka, ih]

theorem tblLookup_of_mem_nodup {t : List (K × Nat)} {k : K} {n : Nat}
    (ht : (t.map Prod.fst).Nodup) (hm : (k, n) ∈ t) :
    tblLookup t k = some n := by
  induction t with
  | nil => simp at hm
  | cons hd tl ih =>
      obtain ⟨a, b⟩ := hd
      simp only [List.map_cons, List.nodup_cons] at ht
      rcases List.mem_cons.mp hm with h | h
      · rw [Prod.mk.injEq] at h
        obtain ⟨h1, h2⟩ := h
        subst h1; subst h2
        simp [tblLookup]
      · by_cases hak : a = k
        · subst hak
          exact absurd (List.mem_map_of_mem Prod.fst h) ht.1
        · simpa [tblLookup, hak] using ih ht.2 h

end TableLemmas

section FoldLemmas

variable {α : Type}

theorem getCount_tblStep (g : α → JPrim) (t : List (JPrim × Nat)) (a : α)
    (v : JPrim) :
    getCount (tblStep g t a) v =
      getCount t v + if g a = v ∧ (g a).truthy then 1 else 0 := by
  unfold tblStep
  by_cases htr : (g a).truthy
  · rw [if_pos htr, getCount_bump]
    by_cases hv : v = g a
    · simp [hv, htr]
    · have hgv : ¬g a = v := fun h => hv h.symm
      simp [hgv, hv]
  · simp [htr]

theorem getCount_foldl_tblStep (g : α → JPrim) (ns : List α)
    (t : List (JPrim × Nat)) (v : JPrim) :
    getCount (ns.foldl (tblStep g) t) v =
      getCount t v +
        ns.countP (fun a => decide (g a = v) && (g a).truthy) := by
  induction ns generalizing t with
  | nil => simp
  | cons a ns ih =>
      rw [List.foldl_cons, ih, getCount_tblStep, List.countP_cons]
      by_cases h : g a = v ∧ (g a).truthy
      · simp [h.1, h.2, Nat.add_assoc, Nat.add_comm, Nat.add_left_comm]
      · have : ¬(decide (g a = v) && (g a).truthy) = true := by
          simpa [Decidable.not_and_iff_or_not] using h
        simp [h, this]

theorem sumVals_foldl_tblStep (g : α → JPrim) (ns : List α)
    (t : List (JPrim × Nat)) :
    sumVals (ns.foldl (tblStep g) t) =
      sumVals t + ns.countP (fun a => (g a).truthy) := by
  induction ns generalizing t with
  | nil => simp
  | cons a ns ih =>
      rw [List.foldl_cons, ih, List.countP_cons]
      unfold tblStep
      by_cases htr : (g a).truthy
      · rw [if_pos htr, sumVals_bump]
        simp [htr, Nat.add_assoc, Nat.add_comm, Nat.add_left_comm]
      · simp [htr]

theorem mem_keys_foldl_tblStep (g : α → JPrim) (ns : List α)
    (t : List (JPrim × Nat)) (v : JPrim) :
    v ∈ (ns.foldl (tblStep g) t).map Prod.fst ↔
      v ∈ t.map Prod.fst ∨ ∃ a ∈ ns, g a = v ∧ (g a).truthy := by
  induction ns generalizing t with
  | nil => simp
  | cons a ns ih =>
      rw [List.foldl_cons, ih]
      unfold tblStep
      by_cases htr : (g a).truthy
      · rw [if_pos htr, mem_keys_bump]
        constructor
        · rintro ((h | rfl) | h)
          · exact Or.inl h
          · exact Or.inr ⟨a, List.mem_cons_self _ _, rfl, htr⟩
          · obtain ⟨b, hb, hgb⟩ := h
            exact Or.inr ⟨b, List.mem_cons_of_mem _ hb, hgb⟩
        · rintro (h | ⟨b, hb, hgb, hgt⟩)
          · exact Or.inl (Or.inl h)
          · rcases List.mem_cons.mp hb with rfl | hb2
            · exact Or.inl (Or.inr hgb.symm)
            · exact Or.inr ⟨b, hb2, hgb, hgt⟩
      · rw [if_neg htr]
        constructor
        · rintro (h | ⟨b, hb, hgb, hgt⟩)
          · exact Or.inl h
          · exact Or.inr ⟨b, List.mem_cons_of_mem _ hb, hgb, hgt⟩
        · rintro (h | ⟨b, hb, hgb, hgt⟩)
          · exact Or.inl h
          · rcases List.mem_cons.mp hb with rfl | hb2
            · exact absurd (hgb ▸ hgt) (by simpa [hgb] using htr)
            · exact Or.inr ⟨b, hb2, hgb, hgt⟩

theorem nodup_keys_foldl_tblStep (g : α → JPrim) (ns : List α)
    {t : List (JPrim × Nat)} (ht : (t.map Prod.fst).Nodup) :
    ((ns.foldl (tblStep g) t).map Prod.fst).Nodup := by
  induction ns generalizing t with
  | nil => simpa
  | cons a ns ih =>
      rw [List.foldl_cons]
      apply ih
      unfold tblStep
      by_cases htr : (g a).truthy
      · rw [if_pos htr]; exact nodup_keys_bump ht
      · rwa [if_neg htr]

theorem one_le_foldl_tblStep (g : α → JPrim) (ns : List α)
    {t : List (JPrim × Nat)} (ht : ∀ p ∈ t, 1 ≤ p.2) :
    ∀ p ∈ ns.foldl (tblStep g) t, 1 ≤ p.2 := by
  induction ns generalizing t with
  | nil => rw [List.foldl_nil]; exact ht
  | cons a ns ih =>
      rw [List.foldl_cons]
      apply ih
      unfold tblStep
      by_cases htr : (g a).truthy
      · rw [if_pos htr]; exact one_le_of_mem_bump ht
      · rwa [if_neg htr]

theorem truthy_keys_foldl_tblStep (g : α → JPrim) (ns : List α)
    {t : List (JPrim × Nat)} (ht : ∀ p ∈ t, (p.1 : JPrim).truthy) :
    ∀ p ∈ ns.foldl (tblStep g) t, (p.1 : JPrim).truthy := by
  induction ns generalizing t with
  | nil => rw [List.foldl_nil]; exact ht
  | cons a ns ih =>
      rw [List.foldl_cons]
      apply ih
      unfold tblStep
      by_cases htr : (g a).truthy
      · rw [if_pos htr]
        intro p hp
        rcases fst_of_mem_bump hp with h | h
        · obtain ⟨q, hq, hqp⟩ := List.mem_map.mp h
          exact hqp ▸ ht q hq
        · exact h ▸ htr
      · rwa [if_neg htr]

end FoldLemmas

theorem procStep_invalid (now : Nat) (acc : ProcAcc) (e : String × JVal)
    (h : validRecord e.2 = false) : procStep now acc e = acc := by
  unfold procStep
  match he : e.2 with
  | .prim p => rfl
  | .arr xs => rw [he] at h; simp [h]

/-- The single `forEach` loop decomposed: each accumulator component is an
independent fold over the valid nodes. -/
theorem processEntries_decomp (now : Nat) (l : List (String × JVal))
    (acc : ProcAcc) :
    l.foldl (procStep now) acc =
      { processedNodes := acc.processedNodes ++ validNodes l
        countrySet := (validNodes l).foldl setStep acc.countrySet
        userAgentCounts :=
          (validNodes l).foldl (tblStep ProcessedNode.userAgent) acc.userAgentCounts
        orgCounts :=
          (validNodes l).foldl (tblStep ProcessedNode.organization) acc.orgCounts
        versionCounts :=
          (validNodes l).foldl (tblStep ProcessedNode.protocolVersion) acc.versionCounts
        totalUptime := (validNodes l).foldl (uptimeStep now) acc.totalUptime
        uptimeCount := (validNodes l).foldl uptimeCountStep acc.uptimeCount } := by
  induction l generalizing acc with
  | nil => simp [validNodes]
  | cons e l ih =>
      match he : e.2 with
      | .prim p =>
          have hv : validRecord e.2 = false := by rw [he]; rfl
          rw [List.foldl_cons, procStep_invalid now acc e hv, ih]
          have : validNodes (e :: l) = validNodes l := by
            simp [validNodes, List.filter_cons, hv]
          rw [this]
      | .arr xs =>
          by_cases hv : validRecord (.arr xs)
          · have hnodes : validNodes (e :: l) = mkNode xs :: validNodes l := by
              simp [validNodes, List.filter_cons, he, hv, nodeOf]
            rw [List.foldl_cons, ih, hnodes]
            have hstep : procStep now acc e =
                { processedNodes := acc.processedNodes ++ [mkNode xs]
                  countrySet := setStep acc.countrySet (mkNode xs)
                  userAgentCounts :=
                    tblStep ProcessedNode.userAgent acc.userAgentCounts (mkNode xs)
                  orgCounts :=
                    tblStep ProcessedNode.organization acc.orgCounts (mkNode xs)
                  versionCounts :=
                    tblStep ProcessedNode.protocolVersion acc.versionCounts (mkNode xs)
                  totalUptime := uptimeStep now acc.totalUptime (mkNode xs)
                  uptimeCount := uptimeCountStep acc.uptimeCount (mkNode xs) } := by
              unfold procStep
              rw [he]
              simp [hv, tblStep, setStep, uptimeStep, uptimeCountStep]
            rw [hstep]
            simp [List.foldl_cons, List.append_assoc]
          · have hv2 : validRecord e.2 = false := by
              rw [he]; exact Bool.not_eq_true _ ▸ (by simpa using hv)
            rw [List.foldl_cons, procStep_invalid now acc e hv2, ih]
            have : validNodes (e :: l) = validNodes l := by
              simp [validNodes, List.filter_cons, hv2]
            rw [this]

/-- The processed-node list of the loop is exactly the valid entries
mapped to nodes, in order. -/
theorem processedNodes_processEntries (now : Nat) (l : List (String × JVal)) :
    (processEntries now l).processedNodes = validNodes l := by
  rw [processEntries, processEntries_decomp]
  simp [emptyAcc]

theorem sumCounts_cons (p : (ℚ × ℚ) × AggCell) (m : List ((ℚ × ℚ) × AggCell)) :
    sumCounts (p :: m) = p.2.count + sumCounts m := by
  simp [sumCounts]

theorem maxCount_cons (p : (ℚ × ℚ) × AggCell) (m : List ((ℚ × ℚ) × AggCell)) :
    maxCount (p :: m) = max p.2.count (maxCount m) := rfl

theorem foldr_max_init (l : List Nat) (b : Nat) :
    l.foldr max b = max (l.foldr max 0) b := by
  induction l with
  | nil => simp
  | cons a l ih => simp [ih, Nat.max_assoc]

theorem maxCount_append_single (m : List ((ℚ × ℚ) × AggCell))
    (p : (ℚ × ℚ) × AggCell) :
    maxCount (m ++ [p]) = max (maxCount m) p.2.count := by
  unfold maxCount
  rw [List.map_append, List.foldr_append]
  simp [foldr_max_init (m.map (fun q => q.2.count)) p.2.count]

theorem sumCounts_append_single (m : List ((ℚ × ℚ) × AggCell))
    (p : (ℚ × ℚ) × AggCell) :
    sumCounts (m ++ [p]) = sumCounts m + p.2.count := by
  simp [sumCounts]

theorem sumCounts_bumpCell {m : List ((ℚ × ℚ) × AggCell)} {key : ℚ × ℚ}
    (h : (tblLookup m key).isSome) :
    sumCounts (bumpCell m key) = sumCounts m + 1 := by
  induction m with
  | nil => simp [tblLookup] at h
  | cons hd tl ih =>
      obtain ⟨k, c⟩ := hd
      by_cases hk : k = key
      · simp only [bumpCell, if_pos hk, sumCounts_cons]
        omega
      · simp only [tblLookup, if_neg hk] at h
        simp only [bumpCell, if_neg hk, sumCounts_cons, ih h]
        omega

theorem maxCount_bumpCell {m : List ((ℚ × ℚ) × AggCell)} {key : ℚ × ℚ}
    {c : AggCell} (h : tblLookup m key = some c) :
    maxCount (bumpCell m key) = max (maxCount m) (c.count + 1) := by
  induction m with
  | nil => simp [tblLookup] at h
  | cons hd tl ih =>
      obtain ⟨k, c2⟩ := hd
      by_cases hk : k = key
      · simp only [tblLookup, if_pos hk, Option.some.injEq] at h
        subst h
        simp only [bumpCell, if_pos hk, maxCount_cons]
        omega
      · simp only [tblLookup, if_neg hk] at h
        simp only [bumpCell, if_neg hk, maxCount_cons, ih h]
        omega

theorem sumCounts_aggNode (st : AggSt) (n : ProcessedNode) :
    sumCounts (aggNode st n).map = sumCounts st.map + 1 := by
  cases hl : tblLookup st.map (cellKey n) with
  | none => simp [aggNode, hl, sumCounts_append_single]
  | some c =>
      simp only [aggNode, hl]
      exact sumCounts_bumpCell (by simp [hl])

theorem curMax_aggNode {st : AggSt} (n : ProcessedNode)
    (h : st.curMax = maxCount st.map) :
    (aggNode st n).curMax = maxCount (aggNode st n).map := by
  cases hl : tblLookup st.map (cellKey n) with
  | none =>
      simp only [aggNode, hl]
      rw [maxCount_append_single, h]
  | some c =>
      simp only [aggNode, hl]
      rw [maxCount_bumpCell hl, h]

theorem sumCounts_foldl_aggNode (nodes : List ProcessedNode) :
    ∀ st : AggSt,
      sumCounts ((nodes.foldl aggNode st).map) = sumCounts st.map + nodes.length := by
  induction nodes with
  | nil => intro st; simp
  | cons n nodes ih =>
      intro st
      rw [List.foldl_cons, ih, sumCounts_aggNode]
      simp only [List.length_cons]
      omega

theorem curMax_foldl_aggNode (nodes : List ProcessedNode) :
    ∀ st : AggSt, st.curMax = maxCount st.map →
      (nodes.foldl aggNode st).curMax = maxCount ((nodes.foldl aggNode st).map) := by
  induction nodes with
  | nil => intro st h; simpa using h
  | cons n nodes ih =>
      intro st h
      rw [List.foldl_cons]
      exact ih _ (curMax_aggNode n h)

theorem curMax_aggregate (nodes : List ProcessedNode) :
    (aggregate nodes).curMax = maxCount (aggregate nodes).map :=
  curMax_foldl_aggNode nodes ⟨[], 0⟩ rfl

theorem tblLookup_bumpCell (m : List ((ℚ × ℚ) × AggCell)) (key v : ℚ × ℚ) :
    tblLookup (bumpCell m key) v =
      if key = v then
        (tblLookup m v).map (fun c => { c with count := c.count + 1 })
      else tblLookup m v := by
  induction m with
  | nil => simp [bumpCell, tblLookup]
  | cons hd tl ih =>
      obtain ⟨k, c⟩ := hd
      by_cases hk : k = key
      · subst hk
        by_cases hv : k = v
        · subst hv
          simp [bumpCell, tblLookup]
        · simp [bumpCell, tblLookup, hv]
      · by_cases hv : k = v
        · subst hv
          have : ¬key = k := fun h2 => hk h2.symm
          simp [bumpCell, hk, tblLookup, this]
        · simp [bumpCell, hk, tblLookup, hv, ih]

theorem tblLookup_append_single {K β : Type} [DecidableEq K]
    (m : List (K × β)) (k : K) (b : β) (v : K) :
    tblLookup (m ++ [(k, b)]) v =
      match tblLookup m v with
      | some x => some x
      | none => if k = v then some b else none := by
  induction m with
  | nil => simp [tblLookup]
  | cons hd tl ih =>
      obtain ⟨a, c⟩ := hd
      by_cases ha : a = v
      · simp [tblLookup, ha]
      · simp [tblLookup, ha, ih]

theorem cellCount_aggNode (st : AggSt) (n : ProcessedNode) (key : ℚ × ℚ) :
    cellCount (aggNode st n).map key =
      cellCount st.map key + if cellKey n = key then 1 else 0 := by
  cases hl : tblLookup st.map (cellKey n) with
  | some c =>
      simp only [aggNode, hl, cellCount, tblLookup_bumpCell]
      by_cases hv : cellKey n = key
      · subst hv
        simp [hl]
      · simp [hv]
  | none =>
      simp only [aggNode, hl, cellCount, tblLookup_append_single]
      by_cases hv : cellKey n = key
      · subst hv
        simp [hl]
      · cases h2 : tblLookup st.map key with
        | some c2 => simp [h2, hv]
        | none => simp [h2, hv]

theorem cellCount_foldl_aggNode (nodes : List ProcessedNode) (key : ℚ × ℚ) :
    ∀ st : AggSt,
      cellCount ((nodes.foldl aggNode st).map) key =
        cellCount st.map key + nodes.countP (fun n => decide (cellKey n = key)) := by
  induction nodes with
  | nil => intro st; simp
  | cons n nodes ih =>
      intro st
      rw [List.foldl_cons, ih, cellCount_aggNode, List.countP_cons]
      by_cases hv : cellKey n = key
      · simp [hv, Nat.add_assoc, Nat.add_comm, Nat.add_left_comm]
      · simp [hv]

section SortLemmas

variable {α : Type}

theorem mem_insertByCountDesc {x y : α × Nat} {l : List (α × Nat)} :
    y ∈ insertByCountDesc x l ↔ y = x ∨ y ∈ l := by
  induction l with
  | nil => simp [insertByCountDesc]
  | cons z t ih =>
      by_cases h : x.2 > z.2
      · simp only [insertByCountDesc, if_pos h, List.mem_cons]
      · simp only [insertByCountDesc, if_neg h, List.mem_cons, ih]
        tauto

theorem sorted_insertByCountDesc (x : α × Nat) {l : List (α × Nat)}
    (h : SortedByCountDesc l) : SortedByCountDesc (insertByCountDesc x l) := by
  induction l with
  | nil => simp [insertByCountDesc, SortedByCountDesc]
  | cons y t ih =>
      rw [SortedByCountDesc, List.pairwise_cons] at h
      obtain ⟨hy, ht⟩ := h
      by_cases hgt : x.2 > y.2
      · rw [SortedByCountDesc]
        simp only [insertByCountDesc, if_pos hgt]
        refine List.Pairwise.cons ?_ (List.Pairwise.cons hy ht)
        intro z hz
        rcases List.mem_cons.mp hz with rfl | hz2
        · exact Nat.le_of_lt hgt
        · exact le_trans (hy z hz2) (Nat.le_of_lt hgt)
      · rw [SortedByCountDesc]
        simp only [insertByCountDesc, if_neg hgt]
        refine List.Pairwise.cons ?_ (ih ht)
        intro z hz
        rcases mem_insertByCountDesc.mp hz with rfl | hz2
        · exact Nat.le_of_not_lt hgt
        · exact hy z hz2

theorem sorted_sortByCountDesc (l : List (α × Nat)) :
    SortedByCountDesc (sortByCountDesc l) := by
  have aux : ∀ (l acc : List (α × Nat)), SortedByCountDesc acc →
      SortedByCountDesc
        (l.foldl (fun acc x => insertByCountDesc x acc) acc) := by
    intro l
    induction l with
    | nil => intro acc h; simpa using h
    | cons x t ih =>
        intro acc h
        rw [List.foldl_cons]
        exact ih _ (sorted_insertByCountDesc x h)
  exact aux l [] (by simp [SortedByCountDesc])

theorem filter_insertByCountDesc (x : α × Nat) (c : Nat) {l : List (α × Nat)}
    (h : SortedByCountDesc l) :
    (insertByCountDesc x l).filter (fun e => e.2 == c) =
      l.filter (fun e => e.2 == c) ++ if x.2 == c then [x] else [] := by
  induction l with
  | nil =>
      by_cases hc : x.2 = c <;>
        simp [insertByCountDesc, List.filter_cons, hc]
  | cons y t ih =>
      rw [SortedByCountDesc, List.pairwise_cons] at h
      obtain ⟨hy, ht⟩ := h
      by_cases hgt : x.2 > y.2
      · simp only [insertByCountDesc, if_pos hgt]
        by_cases hc : x.2 = c
        · have hnil : (y :: t).filter (fun e => e.2 == c) = [] := by
            rw [List.filter_eq_nil_iff]
            intro z hz
            simp only [beq_iff_eq]
            rcases List.mem_cons.mp hz with rfl | hz2
            · omega
            · have := hy z hz2; omega
          simp [List.filter_cons, hc, hnil]
        · simp [List.filter_cons, hc]
      · simp only [insertByCountDesc, if_neg hgt]
        by_cases hyc : y.2 = c
        · simp [List.filter_cons, hyc, ih ht]
        · simp [List.filter_cons, hyc, ih ht]

theorem filter_sortByCountDesc (l : List (α × Nat)) (c : Nat) :
    (sortByCountDesc l).filter (fun e => e.2 == c) =
      l.filter (fun e => e.2 == c) := by
  have aux : ∀ (l acc : List (α × Nat)), SortedByCountDesc acc →
      (l.foldl (fun acc x => insertByCountDesc x acc) acc).filter
          (fun e => e.2 == c) =
        acc.filter (fun e => e.2 == c) ++ l.filter (fun e => e.2 == c) := by
    intro l
    induction l with
    | nil => intro acc h; simp
    | cons x t ih =>
        intro acc h
        rw [List.foldl_cons, ih _ (sorted_insertByCountDesc x h),
            filter_insertByCountDesc x c h]
        by_cases hc : x.2 = c
        · simp [List.filter_cons, hc]
        · simp [List.filter_cons, hc]
  simpa using aux l [] (by simp [SortedByCountDesc])

theorem sorted_take (l : List (α × Nat)) (n : Nat)
    (h : SortedByCountDesc l) : SortedByCountDesc (l.take n) :=
  List.Pairwise.sublist (List.take_sublist n l) h

end SortLemmas

section RatSumLemmas

theorem foldl_add_sum (g : Nat → ℚ) (l : List Nat) (s : ℚ) :
    l.foldl (fun a c => a + g c) s = s + (l.map g).sum := by
  induction l generalizing s with
  | nil => simp
  | cons a t ih =>
      rw [List.foldl_cons, ih]
      simp [add_assoc]

theorem sum_sq_nonneg (xs : List ℚ) : 0 ≤ (xs.map (fun x => x ^ 2)).sum := by
  apply List.sum_nonneg
  intro y hy
  obtain ⟨x, _, rfl⟩ := List.mem_map.mp hy
  positivity

theorem sum_sq_le_sq_sum (xs : List ℚ) (h : ∀ x ∈ xs, 0 ≤ x) :
    (xs.map (fun x => x ^ 2)).sum ≤ xs.sum ^ 2 := by
  induction xs with
  | nil => simp
  | cons a t ih =>
      simp only [List.map_cons, List.sum_cons]
      have ha : 0 ≤ a := h a (List.mem_cons_self _ _)
      have ht : ∀ x ∈ t, 0 ≤ x := fun x hx => h x (List.mem_cons_of_mem _ hx)
      have hts : 0 ≤ t.sum := List.sum_nonneg ht
      have h2 := ih ht
      nlinarith

theorem sum_sq_lt_sq_sum_of_two (a : ℚ) (t : List ℚ) (ha : 0 < a)
    (ht0 : ∀ x ∈ t, 0 ≤ x) (htpos : 0 < t.sum) :
    ((a :: t).map (fun x => x ^ 2)).sum < (a :: t).sum ^ 2 := by
  simp only [List.map_cons, List.sum_cons]
  have h1 := sum_sq_le_sq_sum t ht0
  nlinarith

end RatSumLemmas

theorem countryCountsOf_eq (nodes : List ProcessedNode) :
    countryCountsOf nodes = nodes.foldl (tblStep ProcessedNode.country) [] := rfl

theorem hhiOf_eq_sum (nodes : List ProcessedNode) :
    hhiOf nodes =
      ((countryCountsOf nodes).map
        (fun p => ((p.2 : ℚ) / (nodes.length : ℚ)) ^ 2)).sum := by
  unfold hhiOf
  rw [foldl_add_sum (fun c => ((c : ℚ) / (nodes.length : ℚ)) ^ 2)]
  rw [zero_add, List.map_map]
  rfl

theorem cacheHit_setup (s : AppState) (now : Nat) :
    cacheHit { s with loading := true, error := none } now = cacheHit s now := rfl

theorem fetchAndProcessNodes_miss {s : AppState} {now : Nat} {fr : FetchResult}
    (h : cacheHit s now = false) :
    fetchAndProcessNodes s now fr =
      runFetch { s with loading := true, error := none } now fr := by
  have h2 : cacheHit { s with loading := true, error := none } now = false := h
  simp [fetchAndProcessNodes, h2]

theorem fetchAndProcessNodes_hit {s : AppState} {now : Nat}
    (h : cacheHit s now = true) (fr : FetchResult) :
    fetchAndProcessNodes s now fr =
      ({ s with
          analytics := s.cacheData.getD zeroAnalytics,
          error := none,
          loading := false }, false) := by
  have h2 : cacheHit { s with loading := true, error := none } now = true := h
  simp only [fetchAndProcessNodes, h2, if_true]

theorem runFetch_fails {fr : FetchResult} (h : fr.fails = true)
    (s : AppState) (now : Nat) :
    ∃ msg, runFetch s now fr = (errState s msg, true) := by
  cases fr with
  | thrown msg => exact ⟨msg, rfl⟩
  | resp ok status nodes =>
      cases ok with
      | false => exact ⟨"API Error: " ++ toString status, by simp [runFetch]⟩
      | true =>
          cases nodes with
          | none => exact ⟨"Invalid API response structure.", by simp [runFetch]⟩
          | some entries => simp [FetchResult.fails] at h

theorem runFetch_success (s : AppState) (now status : Nat)
    (entries : List (String × JVal)) :
    runFetch s now (.resp true status (some entries)) =
      ({ s with
         maxIntensity :=
           max 1 (Int.toNat
             ⌈((aggregate (processEntries now entries).processedNodes).curMax : ℚ) *
               (0.8 : ℚ)⌉)
         heatmapPoints :=
           if (heatmapOf (aggregate (processEntries now entries).processedNodes)).length > 0
           then heatmapOf (aggregate (processEntries now entries).processedNodes)
           else mockHeatmapPoints
         individualNodes :=
           if (processEntries now entries).processedNodes.length > 0
           then (processEntries now entries).processedNodes
           else mockIndividualNodes
         analytics := computeAnalytics (processEntries now entries)
         loading := false
         cacheFetch := some now
         cacheData := some (computeAnalytics (processEntries now entries)) }, true) := rfl

/-- C3: the counts of the density cells produced by the aggregation loop
sum to the length of the (untruncated) processed-node list, and each node
contributes to exactly the cell keyed by its coordinates rounded to one
decimal place. -/
theorem claim3_density_sum (nodes : List ProcessedNode) :
    sumCounts (aggregate nodes).map = nodes.length ∧
    ∀ key : ℚ × ℚ,
      cellCount (aggregate nodes).map key =
        nodes.countP (fun n => decide (cellKey n = key)) := by
  constructor
  · have h := sumCounts_foldl_aggNode nodes ⟨[], 0⟩
    simpa [aggregate, sumCounts] using h
  · intro key
    have h := cellCount_foldl_aggNode nodes key ⟨[], 0⟩
    simpa [aggregate, cellCount, tblLookup] using h

/-- C6: the display-intensity ceiling the task stores in `maxIntensity`
equals `max(1, ceil(M * 0.8))` where `M` is the true maximum density-cell
count; in particular `M = 12` yields 10 and `M = 1` yields 1. -/
theorem claim6_display_ceiling :
    (∀ (s : AppState) (now status : Nat) (entries : List (String × JVal)),
        cacheHit s now = false →
        (fetchAndProcessNodes s now
            (.resp true status (some entries))).1.maxIntensity =
          displayCeiling (maxCount (aggregate (validNodes entries)).map)) ∧
      displayCeiling 12 = 10 ∧ displayCeiling 1 = 1 := by
  refine ⟨?_, ?_, ?_⟩
  · intro s now status entries h
    rw [fetchAndProcessNodes_miss h, runFetch_success]
    simp only [processedNodes_processEntries]
    rw [displayCeiling, curMax_aggregate]
  · have h : ⌈((12 : Nat) : ℚ) * (0.8 : ℚ)⌉ = (10 : ℤ) := by
      rw [Int.ceil_eq_iff]; norm_num
    rw [displayCeiling, h]
    rfl
  · have h : ⌈((1 : Nat) : ℚ) * (0.8 : ℚ)⌉ = (1 : ℤ) := by
      rw [Int.ceil_eq_iff]; norm_num
    rw [displayCeiling, h]
    rfl

/-- Witness for C6 at a concrete cache-missing state and snapshot. -/
theorem claim6_display_ceiling_witness :
    (fetchAndProcessNodes initialState 0
        (.resp true 200 (some []))).1.maxIntensity =
      displayCeiling (maxCount (aggregate (validNodes [])).map) :=
  claim6_display_ceiling.1 initialState 0 200 [] rfl

/-- C4: a cache younger than 600000 ms together with a cached statistics
blob short-circuits the task: no network call, the cached statistics are
installed as the analytics, and the heatmap, node and intensity state is
untouched. -/
theorem claim4_cache_hit (s : AppState) (now t : Nat) (d : Analytics)
    (fr : FetchResult) (ht : s.cacheFetch = some t) (hd : s.cacheData = some d)
    (htpos : 0 < t) (hyoung : (now : Int) - (t : Int) < 600000) :
    fetchAndProcessNodes s now fr =
      ({ s with analytics := d, error := none, loading := false }, false) := by
  have hhit : cacheHit s now = true := by
    simp only [cacheHit, ht, hd, Bool.and_eq_true, decide_eq_true_eq]
    exact ⟨by omega, hyoung⟩
  rw [fetchAndProcessNodes_hit hhit fr, hd]
  rfl

/-- Witness for C4: a concrete fresh cache entry short-circuits. -/
theorem claim4_cache_hit_witness :
    fetchAndProcessNodes
        { initialState with cacheFetch := some 1, cacheData := some zeroAnalytics }
        1000 (.thrown "network down") =
      ({ initialState with
         cacheFetch := some 1, cacheData := some zeroAnalytics,
         analytics := zeroAnalytics, error := none, loading := false }, false) :=
  claim4_cache_hit _ 1000 1 zeroAnalytics _ rfl rfl (by decide) (by decide)

/-- C5: on every failure of the fetch (thrown error, non-ok status, or
missing peer map) past the cache check, the task ends on the four mock
heatmap points, the two mock peers (US and GB), the zeroed statistics,
and a non-null error message; no exception escapes (the model is a total
function into a state carrying the message). -/
theorem claim5_fallback (s : AppState) (now : Nat) (fr : FetchResult)
    (hmiss : cacheHit s now = false) (hfail : fr.fails = true) :
    (fetchAndProcessNodes s now fr).1.heatmapPoints = mockHeatmapPoints ∧
    (fetchAndProcessNodes s now fr).1.individualNodes = mockIndividualNodes ∧
    (fetchAndProcessNodes s now fr).1.analytics = zeroAnalytics ∧
    (fetchAndProcessNodes s now fr).1.error.isSome = true ∧
    mockHeatmapPoints.length = 4 ∧
    mockIndividualNodes.map (fun n => n.country) =
      [.pstr "US", .pstr "GB"] := by
  obtain ⟨msg, hmsg⟩ := runFetch_fails hfail { s with loading := true, error := none } now
  rw [fetchAndProcessNodes_miss hmiss, hmsg]
  refine ⟨rfl, rfl, rfl, rfl, rfl, rfl⟩

/-- Witness for C5: a simulated HTTP 500 response on an empty cache. -/
theorem claim5_fallback_witness :
    (fetchAndProcessNodes initialState 0 (.resp false 500 none)).1.heatmapPoints =
        mockHeatmapPoints ∧
    (fetchAndProcessNodes initialState 0 (.resp false 500 none)).1.individualNodes =
        mockIndividualNodes ∧
    (fetchAndProcessNodes initialState 0 (.resp false 500 none)).1.analytics =
        zeroAnalytics ∧
    (fetchAndProcessNodes initialState 0 (.resp false 500 none)).1.error.isSome =
        true ∧
    mockHeatmapPoints.length = 4 ∧
    mockIndividualNodes.map (fun n => n.country) = [.pstr "US", .pstr "GB"] :=
  claim5_fallback initialState 0 (.resp false 500 none) rfl rfl

/-- C10: the two cache keys are written together and only on the success
path, after the statistics are fully computed; every cache-hit or failure
path leaves both keys exactly as they were. -/
theorem claim10_cache_atomic (s : AppState) (now : Nat) (fr : FetchResult) :
    ((cacheHit s now = true ∨ fr.fails = true) →
      (fetchAndProcessNodes s now fr).1.cacheFetch = s.cacheFetch ∧
      (fetchAndProcessNodes s now fr).1.cacheData = s.cacheData) ∧
    (cacheHit s now = false → fr.fails = false →
      (fetchAndProcessNodes s now fr).1.cacheFetch = some now ∧
      (fetchAndProcessNodes s now fr).1.cacheData =
        some ((fetchAndProcessNodes s now fr).1.analytics)) := by
  constructor
  · rintro (hhit | hfail)
    · rw [fetchAndProcessNodes_hit hhit fr]
      exact ⟨rfl, rfl⟩
    · by_cases hmiss : cacheHit s now = true
      · rw [fetchAndProcessNodes_hit hmiss fr]
        exact ⟨rfl, rfl⟩
      · have hmiss2 : cacheHit s now = false := by
          cases h2 : cacheHit s now
          · rfl
          · exact absurd h2 hmiss
        obtain ⟨msg, hmsg⟩ :=
          runFetch_fails hfail { s with loading := true, error := none } now
        rw [fetchAndProcessNodes_miss hmiss2, hmsg]
        exact ⟨rfl, rfl⟩
  · intro hmiss hok
    cases fr with
    | thrown msg => simp [FetchResult.fails] at hok
    | resp ok status nodes =>
        cases ok with
        | false => simp [FetchResult.fails] at hok
        | true =>
            cases nodes with
            | none => simp [FetchResult.fails] at hok
            | some entries =>
                rw [fetchAndProcessNodes_miss hmiss, runFetch_success]
                exact ⟨rfl, rfl⟩

/-- Witness for C10 at a concrete failing fetch on an empty cache. -/
theorem claim10_cache_atomic_witness :
    (fetchAndProcessNodes initialState 0 (.thrown "boom")).1.cacheFetch = none ∧
    (fetchAndProcessNodes initialState 0 (.thrown "boom")).1.cacheData = none := by
  have h := (claim10_cache_atomic initialState 0 (.thrown "boom")).1 (Or.inr rfl)
  simpa [initialState] using h

theorem filter_replicate_of_pos {α : Type} {p : α → Bool} {a : α}
    (h : p a = true) (n : Nat) :
    (List.replicate n a).filter p = List.replicate n a := by
  induction n with
  | zero => rfl
  | succ n ih => simp [List.replicate_succ, List.filter_cons, h, ih]

theorem userAgentCounts_processEntries (now : Nat) (l : List (String × JVal)) :
    (processEntries now l).userAgentCounts =
      (validNodes l).foldl (tblStep ProcessedNode.userAgent) [] := by
  rw [processEntries, processEntries_decomp]
  rfl

theorem orgCounts_processEntries (now : Nat) (l : List (String × JVal)) :
    (processEntries now l).orgCounts =
      (validNodes l).foldl (tblStep ProcessedNode.organization) [] := by
  rw [processEntries, processEntries_decomp]
  rfl

theorem versionCounts_processEntries (now : Nat) (l : List (String × JVal)) :
    (processEntries now l).versionCounts =
      (validNodes l).foldl (tblStep ProcessedNode.protocolVersion) [] := by
  rw [processEntries, processEntries_decomp]
  rfl

theorem countP_and_truthy (g : ProcessedNode → JPrim) (ns : List ProcessedNode)
    (v : JPrim) (hv : v.truthy = true) :
    ns.countP (fun n => decide (g n = v) && (g n).truthy) =
      ns.countP (fun n => decide (g n = v)) := by
  induction ns with
  | nil => rfl
  | cons n ns ih =>
      rw [List.countP_cons, List.countP_cons, ih]
      by_cases h : g n = v
      · simp [h, hv]
      · simp [h]

theorem countP_and_truthy_zero (g : ProcessedNode → JPrim)
    (ns : List ProcessedNode) (v : JPrim) (hv : v.truthy = false) :
    ns.countP (fun n => decide (g n = v) && (g n).truthy) = 0 := by
  induction ns with
  | nil => rfl
  | cons n ns ih =>
      rw [List.countP_cons, ih]
      by_cases h : g n = v
      · simp [h, hv]
      · simp [h]

theorem getCount_table (g : ProcessedNode → JPrim) (ns : List ProcessedNode)
    (v : JPrim) :
    getCount (ns.foldl (tblStep g) []) v =
      if v.truthy then ns.countP (fun n => decide (g n = v)) else 0 := by
  rw [getCount_foldl_tblStep]
  cases hv : v.truthy with
  | true => simp [hv, countP_and_truthy g ns v hv, getCount, tblLookup]
  | false => simp [hv, countP_and_truthy_zero g ns v hv, getCount, tblLookup]

/-- C1 (as stated) is false: a raw record of exactly 13 elements — not
"more than 13" — with numeric, non-NaN positions 8 and 9 already produces
a `ProcessedNode`, because the source tests `nodeData.length > 12`. -/
theorem claim1_counterexample :
    (processEntries 0 [("peer", JVal.arr rec13Fields)]).processedNodes.length = 1 ∧
    rec13Fields.length = 13 :=
  ⟨rfl, rfl⟩

/-- C1 amended: a `ProcessedNode` is produced exactly for the entries
whose value is an array of more than 12 elements (at least 13) with
numeric, non-NaN positions 8 and 9, and an entry failing that predicate
contributes nothing to any output of the task. -/
theorem claim1_amended :
    (∀ (now : Nat) (entries : List (String × JVal)),
        (processEntries now entries).processedNodes = validNodes entries) ∧
    ∀ (s : AppState) (now status : Nat) (pre post : List (String × JVal))
      (e : String × JVal), validRecord e.2 = false →
      fetchAndProcessNodes s now (.resp true status (some (pre ++ e :: post))) =
        fetchAndProcessNodes s now (.resp true status (some (pre ++ post))) := by
  constructor
  · exact processedNodes_processEntries
  · intro s now status pre post e he
    by_cases hc : cacheHit s now = true
    · rw [fetchAndProcessNodes_hit hc, fetchAndProcessNodes_hit hc]
    · have hc2 : cacheHit s now = false := by
        cases h2 : cacheHit s now
        · rfl
        · exact absurd h2 hc
      rw [fetchAndProcessNodes_miss hc2, fetchAndProcessNodes_miss hc2,
          runFetch_success, runFetch_success]
      have hpe : processEntries now (pre ++ e :: post) =
          processEntries now (pre ++ post) := by
        unfold processEntries
        rw [List.foldl_append, List.foldl_append, List.foldl_cons,
            procStep_invalid now _ e he]
      rw [hpe]

/-- Witness for the amended C1: dropping a concrete invalid entry leaves
the task output unchanged. -/
theorem claim1_amended_witness :
    fetchAndProcessNodes initialState 0
        (.resp true 200 (some [("bad", JVal.prim .pnull)])) =
      fetchAndProcessNodes initialState 0 (.resp true 200 (some [])) :=
  claim1_amended.2 initialState 0 200 [] [] ("bad", JVal.prim .pnull) rfl

/-- C2 fails on the code: with 10001 valid peers the marker-rendering
list ends up holding all 10001 of them, because the second
`setIndividualNodes(processedNodes.length > 0 ? processedNodes : ...)`
call (lines 182-184) overwrites the truncated list of line 147 with the
untruncated one, contradicting the `MAX_NODES_FOR_MARKERS` cap. -/
theorem claim2_truncation_bug :
    ((fetchAndProcessNodes initialState 0
        (.resp true 200 (some bigEntries))).1.individualNodes).length = 10001 := by
  have hmiss : cacheHit initialState 0 = false := rfl
  simp only [fetchAndProcessNodes_miss hmiss, runFetch_success]
  show (if (processEntries 0 bigEntries).processedNodes.length > 0
        then (processEntries 0 bigEntries).processedNodes
        else mockIndividualNodes).length = 10001
  have hv : validNodes bigEntries =
      List.replicate 10001 (nodeOf (JVal.arr rec13Fields)) := by
    unfold validNodes bigEntries
    rw [filter_replicate_of_pos (by rfl) 10001, List.map_replicate]
  rw [processedNodes_processEntries, hv]
  have hpos : (List.replicate 10001 (nodeOf (JVal.arr rec13Fields))).length > 0 := by
    rw [List.length_replicate]
    omega
  rw [if_pos hpos, List.length_replicate]

/-- C9 (as stated) is false: a valid peer exhibiting protocol version 0
(present and non-null) is excluded from the protocol-version table,
because `if (node.protocolVersion)` tests JavaScript truthiness and 0 is
falsy. -/
theorem claim9_counterexample :
    (processEntries 0 [("peer", JVal.arr recV0Fields)]).processedNodes.map
        (fun n => n.protocolVersion) = [.pnum 0] ∧
    (processEntries 0 [("peer", JVal.arr recV0Fields)]).versionCounts = [] :=
  ⟨rfl, rfl⟩

/-- C9 amended: each of the four frequency tables is incremented by
exactly one per valid peer for the value the peer exhibits, and a peer is
excluded from a table exactly when its value for that field is falsy
(absent, null, NaN, `false`, the empty string — or the number 0, so
protocol version 0 is not counted). -/
theorem claim9_amended (now : Nat) (entries : List (String × JVal)) (v : JPrim) :
    getCount (processEntries now entries).userAgentCounts v =
      (if v.truthy then
        (processEntries now entries).processedNodes.countP
          (fun n => decide (n.userAgent = v))
      else 0) ∧
    getCount (processEntries now entries).orgCounts v =
      (if v.truthy then
        (processEntries now entries).processedNodes.countP
          (fun n => decide (n.organization = v))
      else 0) ∧
    getCount (processEntries now entries).versionCounts v =
      (if v.truthy then
        (processEntries now entries).processedNodes.countP
          (fun n => decide (n.protocolVersion = v))
      else 0) ∧
    getCount (countryCountsOf (processEntries now entries).processedNodes) v =
      (if v.truthy then
        (processEntries now entries).processedNodes.countP
          (fun n => decide (n.country = v))
      else 0) := by
  refine ⟨?_, ?_, ?_, ?_⟩
  · rw [userAgentCounts_processEntries, processedNodes_processEntries]
    exact getCount_table ProcessedNode.userAgent (validNodes entries) v
  · rw [orgCounts_processEntries, processedNodes_processEntries]
    exact getCount_table ProcessedNode.organization (validNodes entries) v
  · rw [versionCounts_processEntries, processedNodes_processEntries]
    exact getCount_table ProcessedNode.protocolVersion (validNodes entries) v
  · rw [countryCountsOf_eq]
    exact getCount_table ProcessedNode.country _ v

/-- C8: top-N selection from a frequency table is in descending count
order, ties keep first-encounter order (the stable sort leaves the
entries of each count class in table order, and the table lists values
in first-encounter order), and the A:5/B:5/C:3/D:1 example built through
the pipeline yields top-3 [A, B, C] with counts [5, 5, 3]. -/
theorem claim8_top3_stable :
    (∀ l : List (JPrim × Nat), SortedByCountDesc (top3 l)) ∧
    (∀ (l : List (JPrim × Nat)) (c : Nat),
        (sortByCountDesc l).filter (fun e => e.2 == c) =
          l.filter (fun e => e.2 == c)) ∧
    (processEntries 0 uaExampleEntries).userAgentCounts =
      [(.pstr "A", 5), (.pstr "B", 5), (.pstr "C", 3), (.pstr "D", 1)] ∧
    top3 (processEntries 0 uaExampleEntries).userAgentCounts =
      [(.pstr "A", 5), (.pstr "B", 5), (.pstr "C", 3)] := by
  refine ⟨?_, ?_, ?_, ?_⟩
  · intro l
    exact sorted_take _ 3 (sorted_sortByCountDesc l)
  · intro l c
    exact filter_sortByCountDesc l c
  · rfl
  · rfl

theorem sum_map_div (t : List (JPrim × Nat)) (d : ℚ) :
    (t.map (fun p => (p.2 : ℚ) / d)).sum = (sumVals t : ℚ) / d := by
  induction t with
  | nil => simp [sumVals]
  | cons p tl ih =>
      have h : sumVals (p :: tl) = p.2 + sumVals tl := by simp [sumVals]
      rw [List.map_cons, List.sum_cons, ih, h]
      push_cast
      ring

theorem countP_eq_length_iff {α : Type} (p : α → Bool) (l : List α) :
    l.countP p = l.length ↔ ∀ a ∈ l, p a = true := by
  induction l with
  | nil => simp
  | cons a t ih =>
      rw [List.countP_cons, List.length_cons]
      have hle : t.countP p ≤ t.length := List.countP_le_length p
      by_cases h : p a = true
      · simp only [h, if_true]
        constructor
        · intro hc b hb
          rcases List.mem_cons.mp hb with rfl | hbt
          · exact h
          · exact (ih.mp (by omega)) b hbt
        · intro hall
          have h2 := ih.mpr (fun b hb => hall b (List.mem_cons_of_mem _ hb))
          omega
      · have hfalse : p a = false := by
          cases hpa : p a
          · rfl
          · exact absurd hpa h
        simp only [hfalse, Bool.false_eq_true, if_false, Nat.add_zero]
        constructor
        · intro hc
          exact absurd (ih.mp (by omega)) (fun _ => by omega)
        · intro hall
          exact absurd (hall a (List.mem_cons_self _ _)) (by simp [hfalse])

/-- C7: for a non-empty processed-peer list the HHI concentration score
lies in [0, 1] and equals 1 exactly when all peers share one (truthy)
country; for an empty list (total count 0) the score is 0. -/
theorem claim7_hhi (nodes : List ProcessedNode) :
    (nodes ≠ [] →
      0 ≤ hhiOf nodes ∧ hhiOf nodes ≤ 1 ∧
      (hhiOf nodes = 1 ↔
        ∃ c : JPrim, c.truthy = true ∧ ∀ n ∈ nodes, n.country = c)) ∧
    hhiOf [] = 0 := by
  constructor
  case right => rfl
  intro hne
  have hN : 0 < nodes.length := List.length_pos.mpr hne
  have hNq : (0 : ℚ) < (nodes.length : ℚ) := by exact_mod_cast hN
  have hsum : sumVals (countryCountsOf nodes) =
      nodes.countP (fun n => n.country.truthy) := by
    rw [countryCountsOf_eq]
    have h := sumVals_foldl_tblStep ProcessedNode.country nodes []
    simpa [sumVals] using h
  have hone : ∀ p ∈ countryCountsOf nodes, 1 ≤ p.2 := by
    rw [countryCountsOf_eq]
    exact one_le_foldl_tblStep _ _ (by simp)
  have htruthy : ∀ p ∈ countryCountsOf nodes, p.1.truthy := by
    rw [countryCountsOf_eq]
    exact truthy_keys_foldl_tblStep _ _ (by simp)
  have hnodup : ((countryCountsOf nodes).map Prod.fst).Nodup := by
    rw [countryCountsOf_eq]
    exact nodup_keys_foldl_tblStep _ _ (by simp)
  have hmemkeys : ∀ v : JPrim, v ∈ (countryCountsOf nodes).map Prod.fst ↔
      ∃ n ∈ nodes, n.country = v ∧ (n.country).truthy := by
    intro v
    rw [countryCountsOf_eq]
    have h := mem_keys_foldl_tblStep ProcessedNode.country nodes [] v
    simpa using h
  have hgc : ∀ v : JPrim, getCount (countryCountsOf nodes) v =
      if v.truthy then nodes.countP (fun n => decide (n.country = v)) else 0 := by
    intro v
    rw [countryCountsOf_eq]
    exact getCount_table ProcessedNode.country nodes v
  rw [hhiOf_eq_sum]
  have hmm : (countryCountsOf nodes).map
        (fun p => ((p.2 : ℚ) / (nodes.length : ℚ)) ^ 2) =
      ((countryCountsOf nodes).map
        (fun p => (p.2 : ℚ) / (nodes.length : ℚ))).map (fun x => x ^ 2) := by
    rw [List.map_map]
    rfl
  have hxpos : ∀ x ∈ (countryCountsOf nodes).map
      (fun p => (p.2 : ℚ) / (nodes.length : ℚ)), 0 ≤ x := by
    intro x hx
    obtain ⟨p, hp, rfl⟩ := List.mem_map.mp hx
    positivity
  have hsumle : ((countryCountsOf nodes).map
      (fun p => (p.2 : ℚ) / (nodes.length : ℚ))).sum ≤ 1 := by
    rw [sum_map_div, div_le_one hNq, hsum]
    exact_mod_cast List.countP_le_length _
  have hsum0 : 0 ≤ ((countryCountsOf nodes).map
      (fun p => (p.2 : ℚ) / (nodes.length : ℚ))).sum := List.sum_nonneg hxpos
  refine ⟨?_, ?_, ?_⟩
  · rw [hmm]
    exact sum_sq_nonneg _
  · rw [hmm]
    have h1 := sum_sq_le_sq_sum _ hxpos
    nlinarith
  · constructor
    · intro h1
      rw [hmm] at h1
      rcases htt : countryCountsOf nodes with _ | ⟨p, _ | ⟨q, rest⟩⟩
      · rw [htt] at h1
        simp at h1
      · rw [htt] at h1
        simp only [List.map_cons, List.map_nil, List.sum_cons, List.sum_nil,
          add_zero] at h1
        have hple : (p.2 : ℚ) / (nodes.length : ℚ) ≤ 1 := by
          have h2 := hsumle
          rw [htt] at h2
          simpa using h2
        have hx0 : (0 : ℚ) ≤ (p.2 : ℚ) / (nodes.length : ℚ) := by positivity
        have hx1 : (p.2 : ℚ) / (nodes.length : ℚ) = 1 := by nlinarith
        have hp2 : (p.2 : ℚ) = (nodes.length : ℚ) := by
          field_simp at hx1
          exact_mod_cast hx1
        have hp2n : p.2 = nodes.length := by exact_mod_cast hp2
        have hcnt : nodes.countP (fun n => n.country.truthy) = nodes.length := by
          have h3 := hsum
          rw [htt] at h3
          have h4 : sumVals [p] = p.2 := by simp [sumVals]
          omega
        have hall : ∀ n ∈ nodes, (n.country).truthy = true :=
          (countP_eq_length_iff _ _).mp hcnt
        refine ⟨p.1, htruthy p (by rw [htt]; exact List.mem_cons_self _ _), ?_⟩
        intro n hn
        have hk : n.country ∈ (countryCountsOf nodes).map Prod.fst :=
          (hmemkeys n.country).mpr ⟨n, hn, rfl, hall n hn⟩
        rw [htt] at hk
        simpa using hk
      · exfalso
        rw [htt] at h1
        have hppos : (0 : ℚ) < (p.2 : ℚ) / (nodes.length : ℚ) := by
          have h2 := hone p (by rw [htt]; exact List.mem_cons_self _ _)
          have h3 : (0 : ℚ) < (p.2 : ℚ) := by exact_mod_cast h2
          positivity
        have hqpos : (0 : ℚ) < (q.2 : ℚ) / (nodes.length : ℚ) := by
          have h2 := hone q (by rw [htt]; simp)
          have h3 : (0 : ℚ) < (q.2 : ℚ) := by exact_mod_cast h2
          positivity
        have hrest0 : ∀ x ∈ (q :: rest).map
            (fun p => (p.2 : ℚ) / (nodes.length : ℚ)), 0 ≤ x := by
          intro x hx
          obtain ⟨r, hr, rfl⟩ := List.mem_map.mp hx
          positivity
        have hrestpos : 0 < ((q :: rest).map
            (fun p => (p.2 : ℚ) / (nodes.length : ℚ))).sum := by
          rw [List.map_cons, List.sum_cons]
          have h0 : 0 ≤ (rest.map
              (fun p => (p.2 : ℚ) / (nodes.length : ℚ))).sum := by
            apply List.sum_nonneg
            intro x hx
            obtain ⟨r, hr, rfl⟩ := List.mem_map.mp hx
            positivity
          linarith
        have hstrict := sum_sq_lt_sq_sum_of_two
          ((p.2 : ℚ) / (nodes.length : ℚ))
          ((q :: rest).map (fun p => (p.2 : ℚ) / (nodes.length : ℚ)))
          hppos hrest0 hrestpos
        have hle2 : ((p.2 : ℚ) / (nodes.length : ℚ) ::
            (q :: rest).map (fun p => (p.2 : ℚ) / (nodes.length : ℚ))).sum ≤ 1 := by
          have h2 := hsumle
          rw [htt, List.map_cons] at h2
          exact h2
        have hge2 : 0 ≤ ((p.2 : ℚ) / (nodes.length : ℚ) ::
            (q :: rest).map (fun p => (p.2 : ℚ) / (nodes.length : ℚ))).sum := by
          have h2 := hsum0
          rw [htt, List.map_cons] at h2
          exact h2
        have h1e : (((p.2 : ℚ) / (nodes.length : ℚ) ::
            (q :: rest).map (fun p => (p.2 : ℚ) / (nodes.length : ℚ))).map
              (fun x => x ^ 2)).sum = 1 := by
          rw [List.map_cons] at h1
          exact h1
        nlinarith
    · rintro ⟨c, hct, hall⟩
      obtain ⟨n0, hn0⟩ := List.exists_mem_of_ne_nil nodes hne
      have hcmem : c ∈ (countryCountsOf nodes).map Prod.fst :=
        (hmemkeys c).mpr ⟨n0, hn0, hall n0 hn0, by rw [hall n0 hn0]; exact hct⟩
      have hkeysub : ∀ v ∈ (countryCountsOf nodes).map Prod.fst, v = c := by
        intro v hv
        obtain ⟨n, hn, hcv, _⟩ := (hmemkeys v).mp hv
        rw [← hcv, hall n hn]
      rcases htt : countryCountsOf nodes with _ | ⟨p, _ | ⟨q, rest⟩⟩
      · rw [htt] at hcmem
        simp at hcmem
      · have hpc : p.1 = c := by
          apply hkeysub
          rw [htt]
          simp
        have hcntc : nodes.countP (fun n => decide (n.country = c)) =
            nodes.length := by
          rw [countP_eq_length_iff]
          intro n hn
          simp [hall n hn]
        have hm : p.2 = nodes.length := by
          have h1 : getCount [p] c = p.2 := by
            rw [← hpc]
            simp [getCount, tblLookup]
          have h2 := hgc c
          rw [htt, h1, if_pos hct, hcntc] at h2
          exact h2
        rw [List.map_cons, List.map_nil, List.sum_cons, List.sum_nil,
            add_zero, hm, div_self (ne_of_gt hNq)]
        norm_num
      · exfalso
        have hpc : p.1 = c := by
          apply hkeysub
          rw [htt]
          simp
        have hqc : q.1 = c := by
          apply hkeysub
          rw [htt]
          simp
        rw [htt, List.map_cons, List.map_cons, List.nodup_cons] at hnodup
        exact hnodup.1 (by rw [hpc, ← hqc]; simp)

/-- Witness for C7 at a concrete one-peer list (all peers in "US"). -/
theorem claim7_hhi_witness :
    0 ≤ hhiOf [usNode] ∧ hhiOf [usNode] ≤ 1 ∧
      (hhiOf [usNode] = 1 ↔
        ∃ c : JPrim, c.truthy = true ∧ ∀ n ∈ [usNode], n.country = c) :=
  (claim7_hhi [usNode]).1 (by simp)
